import Mathlib

/-!
Verification of the `dna` crate (`src/dna/src/lib.rs`): a 2-bit-per-nucleotide
packed DNA container.  The definitions below are a shallow embedding of the
Rust source: `Nuc`, `PackedDna`, `PackedDna::from_str` (`FromStr` impl),
`PackedDna::from_iter` (`FromIterator<Nuc>` impl), `PackedDna::get` and
`PackedDna::get_counts`.  Machine integers (`u8`, `usize`) are modelled as
`Nat` with explicit `% 256` / `% 2^64` where overflow can occur.
-/

deriving instance DecidableEq for Except

/-- The nucleotide alphabet (Rust enum `Nuc`). -/
inductive Nuc where
  | A
  | C
  | G
  | T
deriving DecidableEq, Repr

/-- Rust `char::to_ascii_uppercase`: maps `'a'..='z'` to `'A'..='Z'`,
leaves every other character unchanged. -/
def toAsciiUpper (c : Char) : Char :=
  if 'a' ≤ c ∧ c ≤ 'z' then Char.ofNat (c.toNat - 32) else c

/-- The packed container (Rust struct `PackedDna`).  `packed_dna` is the
`Vec<u8>` of storage units (each element is `< 256` for every value the two
constructors build); `last_nuc_set_count` is the number of valid 2-bit fields
in the last unit. -/
structure PackedDna where
  packed_dna : List Nat
  last_nuc_set_count : Nat
  a_count : Nat
  c_count : Nat
  g_count : Nat
  t_count : Nat
deriving DecidableEq, Repr

/-- Loop state of the construction loops in `from_str` / `from_iter`:
the vector built so far, the current unit accumulator `curr : u8`, and the
four running counts. -/
structure BuildSt where
  vec : List Nat
  curr : Nat
  a : Nat
  c : Nat
  g : Nat
  t : Nat
deriving DecidableEq, Repr

/-- One iteration of the `from_str` loop body at loop index `i` on the
(already uppercased) character `ch`.  `none` models the early
`return Err(ParseNucError(string_dna))`.  `curr << 2 | k` on a `u8` is
written `curr * 4 % 256 + k`: the shift clears the two low bits, so the
bitwise or just adds the 2-bit code `k`. -/
def stepChar (st : BuildSt) (i : Nat) (ch : Char) : Option BuildSt :=
  let st1 := if i ≠ 0 ∧ i % 4 = 0 then
    { st with vec := st.vec ++ [st.curr], curr := 0 } else st
  if ch = 'A' then some { st1 with curr := st1.curr * 4 % 256, a := st1.a + 1 }
  else if ch = 'C' then some { st1 with curr := st1.curr * 4 % 256 + 1, c := st1.c + 1 }
  else if ch = 'G' then some { st1 with curr := st1.curr * 4 % 256 + 2, g := st1.g + 1 }
  else if ch = 'T' then some { st1 with curr := st1.curr * 4 % 256 + 3, t := st1.t + 1 }
  else none

/-- The `for (i, char) in string_dna.chars().enumerate()` loop of
`PackedDna::from_str`. -/
def fromStrGo : List Char → Nat → BuildSt → Option BuildSt
  | [], _, st => some st
  | ch :: rest, i, st =>
    match stepChar st i ch with
    | none => none
    | some st2 => fromStrGo rest (i + 1) st2

/-- `PackedDna::from_str`.  The error value is the uppercased input carried
by `ParseNucError(string_dna)`.  `string_dna.len() % 4` is the byte length of
the uppercased input; on every success path all characters are ASCII, so it
equals the character count used here. -/
def PackedDna.fromStr (s : String) : Except String PackedDna :=
  let up := s.data.map toAsciiUpper
  match fromStrGo up 0 ⟨[], 0, 0, 0, 0, 0⟩ with
  | none => .error (String.mk up)
  | some st => .ok ⟨st.vec ++ [st.curr], up.length % 4, st.a, st.c, st.g, st.t⟩

/-- The `for (counter, nuc) in iter.into_iter().enumerate()` loop of
`PackedDna::from_iter`.  The first component of the result is `extra_nuc`
(reset to 0 whenever a unit is pushed, incremented once per element). -/
def fromIterGo : List Nuc → Nat → Nat → BuildSt → Nat × BuildSt
  | [], _, extra, st => (extra, st)
  | n :: rest, counter, extra, st =>
    let p : Nat × BuildSt :=
      if counter ≠ 0 ∧ counter % 4 = 0 then
        (0, { st with vec := st.vec ++ [st.curr], curr := 0 })
      else (extra, st)
    let st2 :=
      match n with
      | Nuc.A => { p.2 with curr := p.2.curr * 4 % 256, a := p.2.a + 1 }
      | Nuc.C => { p.2 with curr := p.2.curr * 4 % 256 + 1, c := p.2.c + 1 }
      | Nuc.G => { p.2 with curr := p.2.curr * 4 % 256 + 2, g := p.2.g + 1 }
      | Nuc.T => { p.2 with curr := p.2.curr * 4 % 256 + 3, t := p.2.t + 1 }
    fromIterGo rest (counter + 1) (p.1 + 1) st2

/-- `PackedDna::from_iter` (the `FromIterator<Nuc>` impl); it never fails. -/
def PackedDna.fromIter (l : List Nuc) : PackedDna :=
  let r := fromIterGo l 0 0 ⟨[], 0, 0, 0, 0, 0⟩
  ⟨r.2.vec ++ [r.2.curr], r.1 % 4, r.2.a, r.2.c, r.2.g, r.2.t⟩

/-- `PackedDna::get_counts`. -/
def PackedDna.get_counts (d : PackedDna) : List (Char × Nat) :=
  [('A', d.a_count), ('C', d.c_count), ('G', d.g_count), ('T', d.t_count)]

/-- `usize::MAX + 1`: arithmetic on `usize` is modulo this. -/
def USIZE : Nat := 2 ^ 64

/-- The out-of-range message built by `format!("Index {} is greater than the
given DNA Length", idx)`. -/
def errMsg (idx : Nat) : String :=
  "Index " ++ toString idx ++ " is greater than the given DNA Length"

/-- Character `k` (from the right, 0-based) of the binary rendering of a
storage unit: bit `k` of `n`. -/
def bitChar (n k : Nat) : Char :=
  if n / 2 ^ k % 2 = 1 then '1' else '0'

/-- `format!("{:08b}", unit)` as a list of characters, most significant bit
first.  Faithful for `unit < 256`, which holds for every stored unit. -/
def binary8 (n : Nat) : List Char :=
  [bitChar n 7, bitChar n 6, bitChar n 5, bitChar n 4,
   bitChar n 3, bitChar n 2, bitChar n 1, bitChar n 0]

/-- The final `match str_rep.as_str()` of `PackedDna::get`, decoding one
2-bit field rendered as two binary characters. -/
def decodePair (c1 c2 : Char) : Except String Nuc :=
  if c1 = '0' ∧ c2 = '0' then .ok Nuc.A
  else if c1 = '0' ∧ c2 = '1' then .ok Nuc.C
  else if c1 = '1' ∧ c2 = '0' then .ok Nuc.G
  else if c1 = '1' ∧ c2 = '1' then .ok Nuc.T
  else .error "Invalid String Encountered"

/-- Body of `PackedDna::get` after the subtraction `idx - 1` has been
performed; `j` is the 0-based position, `idx` the original argument (used
only in the error message).  The list indexing `char_vec[...]` in the source
is modelled with `getD`; whenever the bounds check has passed the index is in
range, so the default is never consulted. -/
def getBody (d : PackedDna) (idx j : Nat) : Except String Nuc :=
  let vec_index := j / 4
  let bit_index := j % 4
  if vec_index ≥ d.packed_dna.length ∨
      (vec_index ≥ d.packed_dna.length - 1 ∧ bit_index ≥ d.last_nuc_set_count) then
    .error (errMsg idx)
  else
    let unit := d.packed_dna.getD vec_index 0
    let binary_rep :=
      if vec_index = d.packed_dna.length - 1 ∧ d.last_nuc_set_count ≠ 0 then
        ((binary8 unit).reverse.take (d.last_nuc_set_count * 2)).reverse
      else binary8 unit
    decodePair (binary_rep.getD (bit_index * 2) ' ') (binary_rep.getD (bit_index * 2 + 1) ' ')

/-- `PackedDna::get` under release-profile integer semantics: the `usize`
subtraction `idx - 1` wraps modulo `2^64` (so `get 0` probes a huge index
and reports out of range). -/
def PackedDna.get (d : PackedDna) (idx : Nat) : Except String Nuc :=
  getBody d idx ((idx + (USIZE - 1)) % USIZE)

/-- `PackedDna::get` under debug-profile integer semantics: the `usize`
subtraction `idx - 1` is overflow-checked, and `none` models the arithmetic
underflow abort at `idx = 0`.  No other operation in the body can abort (the
list indexing is always in range once the bounds check has passed). -/
def PackedDna.getChecked (d : PackedDna) (idx : Nat) : Option (Except String Nuc) :=
  if idx = 0 then none else some (getBody d idx (idx - 1))

/-! ## Specification-side functions -/

/-- The 2-bit code of a nucleotide (A=00, C=01, G=10, T=11). -/
def nucCode : Nuc → Nat
  | Nuc.A => 0
  | Nuc.C => 1
  | Nuc.G => 2
  | Nuc.T => 3

/-- The uppercase letter of a nucleotide. -/
def nucChar : Nuc → Char
  | Nuc.A => 'A'
  | Nuc.C => 'C'
  | Nuc.G => 'G'
  | Nuc.T => 'T'

/-- The nucleotide of a 2-bit code. -/
def nucOfCode : Nat → Nuc
  | 0 => Nuc.A
  | 1 => Nuc.C
  | 2 => Nuc.G
  | _ => Nuc.T

/-- The 2-bit code of an (uppercased) character, `none` for characters
outside the alphabet. -/
def charCode (ch : Char) : Option Nat :=
  if ch = 'A' then some 0
  else if ch = 'C' then some 1
  else if ch = 'G' then some 2
  else if ch = 'T' then some 3
  else none

/-- The value of one storage unit holding the 2-bit codes `ks`, first code
in the most significant populated field. -/
def packCodes (ks : List Nat) : Nat :=
  ks.foldl (fun acc k => acc * 4 + k) 0

/-- The storage vector obtained by packing the 2-bit codes `ks`, four per
unit; the last unit holds the remaining 0–4 codes (an empty code list still
yields the single unit `[0]`, as the construction loop pushes its accumulator
once after the loop). -/
def chunksPack (ks : List Nat) : List Nat :=
  if _h : ks.length ≤ 4 then [packCodes ks]
  else packCodes (ks.take 4) :: chunksPack (ks.drop 4)
termination_by ks.length
decreasing_by simp [List.length_drop]; omega

/-- All storage units of `chunksPack` except the last. -/
def chunksInit (ks : List Nat) : List Nat :=
  if _h : ks.length ≤ 4 then []
  else packCodes (ks.take 4) :: chunksInit (ks.drop 4)
termination_by ks.length
decreasing_by simp [List.length_drop]; omega

/-- The codes packed into the last storage unit of `chunksPack`. -/
def lastChunk (ks : List Nat) : List Nat :=
  if _h : ks.length ≤ 4 then ks
  else lastChunk (ks.drop 4)
termination_by ks.length
decreasing_by simp [List.length_drop]; omega

/-- The `from_str` loop pushes the pending unit when it sees the first
character of a new unit; at an aligned loop index `i` this is the state the
pending accumulator is flushed into. -/
def pushAligned (st : BuildSt) (i : Nat) : BuildSt :=
  if i = 0 then st else { st with vec := st.vec ++ [st.curr], curr := 0 }

/-- Updating the loop state with one accepted 2-bit code `k`. -/
def applyCode (st : BuildSt) (k : Nat) : BuildSt :=
  { st with
    curr := st.curr * 4 % 256 + k
    a := st.a + (if k = 0 then 1 else 0)
    c := st.c + (if k = 1 then 1 else 0)
    g := st.g + (if k = 2 then 1 else 0)
    t := st.t + (if k = 3 then 1 else 0) }

/-- The exponent (base 4) of the field of the storage unit that
`PackedDna::get` reads for 0-based position `j`: position `3 - j % 4` from
the low end in a full unit, position `tail - 1 - j % 4` in a partially
filled last unit. -/
def fieldExp (d : PackedDna) (j : Nat) : Nat :=
  if j / 4 = d.packed_dna.length - 1 ∧ d.last_nuc_set_count ≠ 0 ∧
      d.last_nuc_set_count < 4 then
    d.last_nuc_set_count - 1 - j % 4
  else 3 - j % 4

/-! ## Basic lemmas about codes and characters -/

theorem charCode_cases {ch : Char} {k : Nat} (h : charCode ch = some k) :
    (ch = 'A' ∧ k = 0) ∨ (ch = 'C' ∧ k = 1) ∨ (ch = 'G' ∧ k = 2) ∨ (ch = 'T' ∧ k = 3) := by
  unfold charCode at h
  split at h
  · simp_all
  · split at h
    · simp_all
    · split at h
      · simp_all
      · split at h <;> simp_all

theorem charCode_lt {ch : Char} {k : Nat} (h : charCode ch = some k) : k < 4 := by
  rcases charCode_cases h with ⟨_, h2⟩ | ⟨_, h2⟩ | ⟨_, h2⟩ | ⟨_, h2⟩ <;> omega

theorem charCode_nucChar (n : Nuc) : charCode (nucChar n) = some (nucCode n) := by
  cases n <;> rfl

theorem nucChar_nucOfCode {ch : Char} {k : Nat} (h : charCode ch = some k) :
    nucChar (nucOfCode k) = ch := by
  rcases charCode_cases h with ⟨h1, h2⟩ | ⟨h1, h2⟩ | ⟨h1, h2⟩ | ⟨h1, h2⟩ <;>
    subst h1 <;> subst h2 <;> rfl

theorem toAsciiUpper_nucChar (n : Nuc) : toAsciiUpper (nucChar n) = nucChar n := by
  cases n <;> rfl

theorem stepChar_of_code {ch : Char} {k : Nat} (h : charCode ch = some k)
    (st : BuildSt) (i : Nat) :
    stepChar st i ch =
      some (applyCode (if i ≠ 0 ∧ i % 4 = 0 then
        { st with vec := st.vec ++ [st.curr], curr := 0 } else st) k) := by
  rcases charCode_cases h with ⟨h1, h2⟩ | ⟨h1, h2⟩ | ⟨h1, h2⟩ | ⟨h1, h2⟩ <;>
    subst h1 <;> subst h2 <;> simp [stepChar, applyCode]

theorem stepChar_of_none {ch : Char} (h : charCode ch = none) (st : BuildSt) (i : Nat) :
    stepChar st i ch = none := by
  unfold charCode at h
  unfold stepChar
  split at h
  · simp_all
  · split at h
    · simp_all
    · split at h
      · simp_all
      · split at h <;> simp_all

theorem stepChar_some {ch : Char} {st st2 : BuildSt} {i : Nat}
    (h : stepChar st i ch = some st2) : ∃ k, charCode ch = some k := by
  cases hc : charCode ch with
  | none => rw [stepChar_of_none hc] at h; exact absurd h (by simp)
  | some k => exact ⟨k, rfl⟩

/-! ## Lemmas about the `from_str` loop -/

theorem fromStrGo_append (xs ys : List Char) (i : Nat) (st : BuildSt) :
    fromStrGo (xs ++ ys) i st =
      (fromStrGo xs i st).bind (fun st2 => fromStrGo ys (i + xs.length) st2) := by
  induction xs generalizing i st with
  | nil => simp [fromStrGo]
  | cons ch rest ih =>
    simp only [List.cons_append, fromStrGo]
    cases stepChar st i ch with
    | none => simp
    | some st2 =>
      simp only [Option.some_bind, List.append_eq]
      rw [ih (i + 1) st2]
      have harith : i + 1 + rest.length = i + (ch :: rest).length := by
        simp
        omega
      rw [harith]

theorem fromStrGo_of_bad (cs : List Char) :
    ∀ (i : Nat) (st : BuildSt), (∃ c ∈ cs, charCode c = none) →
      fromStrGo cs i st = none := by
  induction cs with
  | nil => intro i st h; simp at h
  | cons ch rest ih =>
    intro i st h
    rcases h with ⟨c, hmem, hc⟩
    rcases List.mem_cons.mp hmem with rfl | hmem2
    · simp [fromStrGo, stepChar_of_none hc]
    · unfold fromStrGo
      cases hs : stepChar st i ch with
      | none => rfl
      | some st2 => exact ih (i + 1) st2 ⟨c, hmem2, hc⟩

theorem fromStrGo_some_codes (cs : List Char) :
    ∀ (i : Nat) (st st2 : BuildSt), fromStrGo cs i st = some st2 →
      ∃ ks : List Nat, cs.map charCode = ks.map some := by
  induction cs with
  | nil => intro _ _ _ _; exact ⟨[], rfl⟩
  | cons ch rest ih =>
    intro i st st2 h
    unfold fromStrGo at h
    cases hs : stepChar st i ch with
    | none => rw [hs] at h; exact absurd h (by simp)
    | some st3 =>
      rw [hs] at h
      obtain ⟨k, hk⟩ := stepChar_some hs
      obtain ⟨ks, hks⟩ := ih (i + 1) st3 st2 h
      exact ⟨k :: ks, by simp [hk, hks]⟩

/-! ## Lemmas about `packCodes` -/

theorem foldl_pack (ks : List Nat) : ∀ a : Nat,
    ks.foldl (fun acc k => acc * 4 + k) a = a * 4 ^ ks.length + packCodes ks := by
  induction ks with
  | nil => intro a; simp [packCodes]
  | cons k rest ih =>
    intro a
    simp only [List.foldl_cons, List.length_cons, packCodes]
    rw [ih (a * 4 + k)]
    have h2 : List.foldl (fun acc k => acc * 4 + k) (0 * 4 + k) rest =
        (0 * 4 + k) * 4 ^ rest.length + packCodes rest := ih (0 * 4 + k)
    rw [h2]
    ring

theorem packCodes_cons (k : Nat) (ks : List Nat) :
    packCodes (k :: ks) = k * 4 ^ ks.length + packCodes ks := by
  have h : packCodes (k :: ks) = List.foldl (fun acc k => acc * 4 + k) (0 * 4 + k) ks := rfl
  rw [h, foldl_pack ks (0 * 4 + k)]
  ring_nf

theorem packCodes_lt (ks : List Nat) : (∀ k ∈ ks, k < 4) →
    packCodes ks < 4 ^ ks.length := by
  induction ks with
  | nil => intro _; simp [packCodes]
  | cons k rest ih =>
    intro hk
    rw [packCodes_cons]
    have h1 : k < 4 := hk k (by simp)
    have h2 : packCodes rest < 4 ^ rest.length := ih (fun x hx => hk x (by simp [hx]))
    have h3 : (k + 1) * 4 ^ rest.length ≤ 4 * 4 ^ rest.length :=
      Nat.mul_le_mul_right _ (by omega)
    have h4 : (4 : Nat) ^ (k :: rest).length = 4 * 4 ^ rest.length := by
      simp [pow_succ]; ring
    rw [h4]
    nlinarith

theorem packCodes_extract (ks : List Nat) : ∀ b : Nat, (∀ k ∈ ks, k < 4) →
    b < ks.length →
    packCodes ks / 4 ^ (ks.length - 1 - b) % 4 = ks.getD b 0 := by
  induction ks with
  | nil => intro b _ hb; simp at hb
  | cons k rest ih =>
    intro b hk hb
    have hrest : ∀ x ∈ rest, x < 4 := fun x hx => hk x (by simp [hx])
    have hklt : k < 4 := hk k (by simp)
    have hplt : packCodes rest < 4 ^ rest.length := packCodes_lt rest hrest
    cases b with
    | zero =>
      have he : (k :: rest).length - 1 - 0 = rest.length := by simp
      rw [he, packCodes_cons, add_comm]
      rw [Nat.add_mul_div_right (packCodes rest) k (by positivity)]
      rw [Nat.div_eq_of_lt hplt]
      simpa using Nat.mod_eq_of_lt hklt
    | succ b2 =>
      have hb2 : b2 < rest.length := by simpa using hb
      have he : (k :: rest).length - 1 - (b2 + 1) = rest.length - 1 - b2 := by
        simp
        omega
      rw [he, packCodes_cons]
      have hpow : (4 : Nat) ^ rest.length =
          4 ^ (rest.length - 1 - b2) * 4 ^ (b2 + 1) := by
        rw [← pow_add]
        congr 1
        omega
      have h1 : k * 4 ^ rest.length + packCodes rest =
          packCodes rest + (k * 4 ^ (b2 + 1)) * 4 ^ (rest.length - 1 - b2) := by
        rw [hpow]; ring
      rw [h1, Nat.add_mul_div_right _ _ (by positivity)]
      have h2 : k * 4 ^ (b2 + 1) = (k * 4 ^ b2) * 4 := by
        rw [pow_succ]; ring
      rw [h2, Nat.add_mul_mod_self_right]
      have := ih b2 hrest hb2
      rw [this]
      simp

/-! ## Lemmas about `chunksPack` -/

theorem chunksPack_length (ks : List Nat) :
    (chunksPack ks).length = if ks.length = 0 then 1 else (ks.length + 3) / 4 := by
  rw [chunksPack]
  by_cases h4 : ks.length ≤ 4
  · rw [dif_pos h4]
    by_cases h0 : ks.length = 0
    · simp [h0]
    · simp only [List.length_cons, List.length_nil, if_neg h0]
      omega
  · rw [dif_neg h4]
    have hd : (ks.drop 4).length = ks.length - 4 := by simp
    have ih := chunksPack_length (ks.drop 4)
    simp only [List.length_cons, ih, hd]
    have h5 : ¬ (ks.length ≤ 4) := h4
    have : ¬ (ks.length - 4 = 0) := by omega
    rw [if_neg this, if_neg (by omega : ¬ ks.length = 0)]
    omega
termination_by ks.length
decreasing_by simp [List.length_drop]; omega

theorem chunksInit_concat (ks : List Nat) :
    chunksInit ks ++ [packCodes (lastChunk ks)] = chunksPack ks := by
  rw [chunksInit, lastChunk, chunksPack]
  by_cases h4 : ks.length ≤ 4
  · rw [dif_pos h4, dif_pos h4, dif_pos h4]
    simp
  · rw [dif_neg h4, dif_neg h4, dif_neg h4]
    have ih := chunksInit_concat (ks.drop 4)
    rw [List.cons_append, ih]
termination_by ks.length
decreasing_by simp [List.length_drop]; omega

theorem chunksPack_getD (ks : List Nat) : ∀ q : Nat, ks ≠ [] → q ≤ (ks.length - 1) / 4 →
    (chunksPack ks).getD q 0 = packCodes ((ks.drop (4 * q)).take 4) := by
  intro q hne hq
  rw [chunksPack]
  by_cases h4 : ks.length ≤ 4
  · rw [dif_pos h4]
    have hlen : 1 ≤ ks.length := by
      cases ks with
      | nil => exact absurd rfl hne
      | cons a l => simp
    have hq0 : q = 0 := by omega
    subst hq0
    have htake : ks.take 4 = ks := List.take_of_length_le h4
    simp [htake]
  · rw [dif_neg h4]
    cases q with
    | zero => simp
    | succ q2 =>
      have hd : (ks.drop 4).length = ks.length - 4 := by simp
      have hne2 : ks.drop 4 ≠ [] := by
        intro hcon
        have := congrArg List.length hcon
        simp at this
        omega
      have hq2 : q2 ≤ ((ks.drop 4).length - 1) / 4 := by
        rw [hd]
        omega
      have ih := chunksPack_getD (ks.drop 4) q2 hne2 hq2
      rw [List.getD_cons_succ, ih, List.drop_drop]
      have harith : 4 + 4 * q2 = 4 * (q2 + 1) := by omega
      rw [harith]
termination_by ks.length
decreasing_by simp [List.length_drop]; omega

/-! ## The closed form of the construction loop -/

theorem codes_lt {cs : List Char} {ks : List Nat}
    (hmap : cs.map charCode = ks.map some) : ∀ k ∈ ks, k < 4 := by
  intro k hk
  have h1 : some k ∈ ks.map some := List.mem_map_of_mem some hk
  rw [← hmap] at h1
  obtain ⟨c, _, hc⟩ := List.mem_map.mp h1
  exact charCode_lt hc

theorem pushAligned_vecless (st : BuildSt) (i : Nat) :
    (pushAligned st i).a = st.a ∧ (pushAligned st i).c = st.c ∧
    (pushAligned st i).g = st.g ∧ (pushAligned st i).t = st.t := by
  unfold pushAligned
  split <;> simp

theorem pushAligned_curr (st : BuildSt) (i : Nat) (hz : i = 0 → st.curr = 0) :
    (pushAligned st i).curr = 0 := by
  unfold pushAligned
  split
  · exact hz (by assumption)
  · rfl

theorem fromStrGo_steps (cs : List Char) : ∀ (ks : List Nat) (i : Nat) (st : BuildSt),
    cs.map charCode = ks.map some → i % 4 + cs.length ≤ 4 → (cs ≠ [] → i % 4 ≠ 0) →
    fromStrGo cs i st = some (ks.foldl applyCode st) := by
  induction cs with
  | nil =>
    intro ks i st hmap _ _
    have hks : ks = [] := by
      have h1 : ks.map some = [] := hmap.symm
      simpa using h1
    subst hks
    simp [fromStrGo]
  | cons c1 cs1 ih =>
    intro ks i st hmap hle hnz
    cases ks with
    | nil => simp at hmap
    | cons k1 ks1 =>
      simp only [List.map_cons, List.cons.injEq] at hmap
      obtain ⟨hc1, hrest⟩ := hmap
      have hi : i % 4 ≠ 0 := hnz (by simp)
      simp only [List.length_cons] at hle
      simp only [fromStrGo]
      rw [stepChar_of_code hc1]
      have hcond : ¬ (i ≠ 0 ∧ i % 4 = 0) := by
        intro hcon
        exact hi hcon.2
      rw [if_neg hcond]
      have hle2 : (i + 1) % 4 + cs1.length ≤ 4 := by omega
      have hnz2 : cs1 ≠ [] → (i + 1) % 4 ≠ 0 := by
        intro hne
        have hpos : 1 ≤ cs1.length := List.length_pos.mpr hne
        omega
      show fromStrGo cs1 (i + 1) (applyCode st k1) =
        some (List.foldl applyCode st (k1 :: ks1))
      rw [ih ks1 (i + 1) (applyCode st k1) hrest hle2 hnz2]
      simp [List.foldl_cons]

theorem fromStrGo_block (cs : List Char) (ks : List Nat) (i : Nat) (st : BuildSt)
    (hmap : cs.map charCode = ks.map some) (hi : i % 4 = 0)
    (hpos : 1 ≤ cs.length) (h4 : cs.length ≤ 4) :
    fromStrGo cs i st = some (ks.foldl applyCode (pushAligned st i)) := by
  cases cs with
  | nil => simp at hpos
  | cons c1 cs1 =>
    cases ks with
    | nil => simp at hmap
    | cons k1 ks1 =>
      simp only [List.map_cons, List.cons.injEq] at hmap
      obtain ⟨hc1, hrest⟩ := hmap
      simp only [List.length_cons] at h4
      simp only [fromStrGo]
      rw [stepChar_of_code hc1]
      have hpush : (if i ≠ 0 ∧ i % 4 = 0 then
          { st with vec := st.vec ++ [st.curr], curr := 0 } else st) = pushAligned st i := by
        unfold pushAligned
        by_cases h0 : i = 0
        · rw [if_neg (by simp [h0]), if_pos h0]
        · rw [if_pos ⟨h0, hi⟩, if_neg h0]
      rw [hpush]
      have hle2 : (i + 1) % 4 + cs1.length ≤ 4 := by omega
      have hnz2 : cs1 ≠ [] → (i + 1) % 4 ≠ 0 := by
        intro _
        omega
      show fromStrGo cs1 (i + 1) (applyCode (pushAligned st i) k1) =
        some (List.foldl applyCode (pushAligned st i) (k1 :: ks1))
      rw [fromStrGo_steps cs1 ks1 (i + 1) (applyCode (pushAligned st i) k1) hrest hle2 hnz2]
      simp [List.foldl_cons]

theorem foldl_applyCode (ks : List Nat) : ∀ st : BuildSt, (∀ k ∈ ks, k < 4) →
    st.curr * 4 ^ ks.length + packCodes ks < 256 →
    ks.foldl applyCode st = ⟨st.vec, st.curr * 4 ^ ks.length + packCodes ks,
      st.a + ks.count 0, st.c + ks.count 1, st.g + ks.count 2, st.t + ks.count 3⟩ := by
  induction ks with
  | nil =>
    intro st _ _
    simp [packCodes]
  | cons k ks1 ih =>
    intro st hk hbound
    have hk1 : k < 4 := hk k (by simp)
    have hrest : ∀ x ∈ ks1, x < 4 := fun x hx => hk x (by simp [hx])
    have hone : 1 ≤ (4:Nat) ^ ks1.length := Nat.one_le_pow _ _ (by norm_num)
    have hpack : packCodes (k :: ks1) = k * 4 ^ ks1.length + packCodes ks1 :=
      packCodes_cons k ks1
    have hpow : (4:Nat) ^ (k :: ks1).length = 4 ^ ks1.length * 4 := by
      rw [List.length_cons, pow_succ]
    have hkey : (st.curr * 4 + k) * 4 ^ ks1.length + packCodes ks1 < 256 := by
      have h1 : st.curr * 4 ^ (k :: ks1).length + packCodes (k :: ks1) =
          (st.curr * 4 + k) * 4 ^ ks1.length + packCodes ks1 := by
        rw [hpack, hpow]
        ring
      omega
    have hble : st.curr * 4 < 256 := by nlinarith
    have hmod : st.curr * 4 % 256 = st.curr * 4 := Nat.mod_eq_of_lt hble
    have happ : applyCode st k = ⟨st.vec, st.curr * 4 + k,
        st.a + (if k = 0 then 1 else 0), st.c + (if k = 1 then 1 else 0),
        st.g + (if k = 2 then 1 else 0), st.t + (if k = 3 then 1 else 0)⟩ := by
      unfold applyCode
      rw [hmod]
    rw [List.foldl_cons, happ, ih _ hrest (by simpa using hkey)]
    simp only [BuildSt.mk.injEq, true_and]
    refine ⟨?_, ?_, ?_, ?_, ?_⟩
    · rw [hpack, hpow]
      ring
    · simp only [List.count_cons, beq_iff_eq]
      split <;> omega
    · simp only [List.count_cons, beq_iff_eq]
      split <;> omega
    · simp only [List.count_cons, beq_iff_eq]
      split <;> omega
    · simp only [List.count_cons, beq_iff_eq]
      split <;> omega

theorem fromStrGo_closed (cs : List Char) (ks : List Nat) (i : Nat) (st : BuildSt)
    (hmap : cs.map charCode = ks.map some) (hi : i % 4 = 0) (hz : i = 0 → st.curr = 0)
    (hne : cs ≠ []) :
    fromStrGo cs i st = some
      ⟨(pushAligned st i).vec ++ chunksInit ks, packCodes (lastChunk ks),
        st.a + ks.count 0, st.c + ks.count 1, st.g + ks.count 2, st.t + ks.count 3⟩ := by
  have hlen : cs.length = ks.length := by
    have h1 := congrArg List.length hmap
    simpa using h1
  have hk4 : ∀ k ∈ ks, k < 4 := codes_lt hmap
  have hpos : 1 ≤ cs.length := List.length_pos.mpr hne
  have hPcurr : (pushAligned st i).curr = 0 := pushAligned_curr st i hz
  obtain ⟨hPa, hPc, hPg, hPt⟩ := pushAligned_vecless st i
  have h44 : (4:Nat) ^ 4 = 256 := by norm_num
  by_cases h4 : cs.length ≤ 4
  · rw [fromStrGo_block cs ks i st hmap hi hpos h4]
    have hbound : (pushAligned st i).curr * 4 ^ ks.length + packCodes ks < 256 := by
      rw [hPcurr]
      have hlt := packCodes_lt ks hk4
      have h2 : (4:Nat) ^ ks.length ≤ 4 ^ 4 := Nat.pow_le_pow_right (by norm_num) (by omega)
      simp only [Nat.zero_mul, Nat.zero_add]
      omega
    rw [foldl_applyCode ks (pushAligned st i) hk4 hbound]
    have hci : chunksInit ks = [] := by
      rw [chunksInit, dif_pos (by omega : ks.length ≤ 4)]
    have hlc : lastChunk ks = ks := by
      rw [lastChunk, dif_pos (by omega : ks.length ≤ 4)]
    rw [hci, hlc, hPcurr, hPa, hPc, hPg, hPt]
    simp
  · have hsplit : cs.take 4 ++ cs.drop 4 = cs := List.take_append_drop 4 cs
    rw [← hsplit, fromStrGo_append]
    have hmt : (cs.take 4).map charCode = (ks.take 4).map some := by
      rw [List.map_take, List.map_take, hmap]
    have hmd : (cs.drop 4).map charCode = (ks.drop 4).map some := by
      rw [List.map_drop, List.map_drop, hmap]
    have hlt4 : (cs.take 4).length = 4 := by
      simp
      omega
    rw [fromStrGo_block (cs.take 4) (ks.take 4) i st hmt hi (by omega) (by omega)]
    have hk4t : ∀ k ∈ ks.take 4, k < 4 := fun k hk => hk4 k (List.mem_of_mem_take hk)
    have hlent : (ks.take 4).length = 4 := by
      simp
      omega
    have hbound2 : (pushAligned st i).curr * 4 ^ (ks.take 4).length +
        packCodes (ks.take 4) < 256 := by
      rw [hPcurr]
      have hlt := packCodes_lt (ks.take 4) hk4t
      rw [hlent] at hlt
      simp only [Nat.zero_mul, Nat.zero_add]
      omega
    rw [foldl_applyCode (ks.take 4) (pushAligned st i) hk4t hbound2]
    simp only [Option.some_bind]
    have hidx : i + (cs.take 4).length = i + 4 := by rw [hlt4]
    rw [hidx]
    have hneD : cs.drop 4 ≠ [] := by
      intro hcon
      have := congrArg List.length hcon
      simp at this
      omega
    rw [fromStrGo_closed (cs.drop 4) (ks.drop 4) (i + 4) _ hmd (by omega)
      (fun h => absurd h (by omega)) hneD]
    have hciks : chunksInit ks = packCodes (ks.take 4) :: chunksInit (ks.drop 4) := by
      rw [chunksInit, dif_neg (by omega : ¬ ks.length ≤ 4)]
    have hlcks : lastChunk ks = lastChunk (ks.drop 4) := by
      rw [lastChunk, dif_neg (by omega : ¬ ks.length ≤ 4)]
    have hcount : ∀ m : Nat, ks.count m = (ks.take 4).count m + (ks.drop 4).count m := by
      intro m
      conv_lhs => rw [← List.take_append_drop 4 ks]
      rw [List.count_append]
    simp only [Option.some.injEq, BuildSt.mk.injEq]
    have hpush4 : ∀ stx : BuildSt, (pushAligned stx (i + 4)).vec = stx.vec ++ [stx.curr] := by
      intro stx
      unfold pushAligned
      rw [if_neg (by omega : ¬ i + 4 = 0)]
    refine ⟨?_, ?_, ?_, ?_, ?_, ?_⟩
    · rw [hpush4, hciks]
      simp [hPcurr]
    · rw [hlcks]
    · rw [hcount 0]
      simp only [hPa]
      omega
    · rw [hcount 1]
      simp only [hPc]
      omega
    · rw [hcount 2]
      simp only [hPg]
      omega
    · rw [hcount 3]
      simp only [hPt]
      omega
termination_by cs.length
decreasing_by simp [List.length_drop]; omega

/-! ## Canonical form of `from_str` -/

theorem fromStr_eq_match (s : String) :
    PackedDna.fromStr s =
      (match fromStrGo (s.data.map toAsciiUpper) 0 ⟨[], 0, 0, 0, 0, 0⟩ with
        | none => Except.error (String.mk (s.data.map toAsciiUpper))
        | some st => Except.ok ⟨st.vec ++ [st.curr], (s.data.map toAsciiUpper).length % 4,
            st.a, st.c, st.g, st.t⟩) := rfl

theorem fromStr_of_bad (s : String)
    (h : ∃ c ∈ s.data.map toAsciiUpper, charCode c = none) :
    PackedDna.fromStr s = .error (String.mk (s.data.map toAsciiUpper)) := by
  rw [fromStr_eq_match, fromStrGo_of_bad _ 0 _ h]

theorem fromStr_valid (s : String) (ks : List Nat)
    (hmap : (s.data.map toAsciiUpper).map charCode = ks.map some) :
    PackedDna.fromStr s = .ok ⟨chunksPack ks, ks.length % 4,
      ks.count 0, ks.count 1, ks.count 2, ks.count 3⟩ := by
  have hlen : s.data.length = ks.length := by
    have h1 := congrArg List.length hmap
    simpa using h1
  rw [fromStr_eq_match]
  by_cases hemp : s.data.map toAsciiUpper = []
  · have hks : ks = [] := by
      rw [hemp] at hmap
      have h2 : ks.map some = [] := hmap.symm
      simpa using h2
    subst hks
    rw [hemp]
    have hcp : chunksPack ([] : List Nat) = [0] := by
      rw [chunksPack, dif_pos (by simp)]
      rfl
    simp [fromStrGo, hcp]
  · rw [fromStrGo_closed (s.data.map toAsciiUpper) ks 0 ⟨[], 0, 0, 0, 0, 0⟩ hmap rfl
      (fun _ => rfl) hemp]
    have hP0 : pushAligned ⟨[], 0, 0, 0, 0, 0⟩ 0 = ⟨[], 0, 0, 0, 0, 0⟩ := by
      unfold pushAligned
      rw [if_pos rfl]
    simp only [hP0, Except.ok.injEq, PackedDna.mk.injEq]
    refine ⟨?_, ?_, ?_, ?_, ?_, ?_⟩
    · rw [← chunksInit_concat ks]
      simp
    · rw [List.length_map, hlen]
    · simp
    · simp
    · simp
    · simp

theorem fromStr_ok_shape (s : String) (d : PackedDna)
    (hok : PackedDna.fromStr s = .ok d) :
    ∃ ks : List Nat, (s.data.map toAsciiUpper).map charCode = ks.map some ∧
      d = ⟨chunksPack ks, ks.length % 4, ks.count 0, ks.count 1, ks.count 2, ks.count 3⟩ ∧
      ks.length = s.data.length := by
  cases hgo : fromStrGo (s.data.map toAsciiUpper) 0 ⟨[], 0, 0, 0, 0, 0⟩ with
  | none =>
    have herr : PackedDna.fromStr s = .error (String.mk (s.data.map toAsciiUpper)) := by
      rw [fromStr_eq_match, hgo]
    rw [herr] at hok
    exact absurd hok (by simp)
  | some st =>
    obtain ⟨ks, hmap⟩ := fromStrGo_some_codes _ 0 _ st hgo
    have hv := fromStr_valid s ks hmap
    rw [hok] at hv
    have hd := Except.ok.inj hv
    have hlen : s.data.length = ks.length := by
      have h1 := congrArg List.length hmap
      simpa using h1
    exact ⟨ks, hmap, hd, hlen.symm⟩

/-! ## Equivalence of the iterator path with the text path -/

theorem fromIterGo_snd (l : List Nuc) : ∀ (i e : Nat) (st : BuildSt),
    fromStrGo (l.map nucChar) i st = some (fromIterGo l i e st).2 := by
  induction l with
  | nil => intro i e st; simp [fromStrGo, fromIterGo]
  | cons n rest ih =>
    intro i e st
    by_cases hcond : i ≠ 0 ∧ i % 4 = 0
    · cases n <;>
        simp only [List.map_cons, fromStrGo, fromIterGo, stepChar, nucChar,
          if_pos hcond] <;>
        simp only [Char.reduceEq, if_true, if_false, ite_true, ite_false, reduceIte] <;>
        exact ih (i + 1) _ _
    · cases n <;>
        simp only [List.map_cons, fromStrGo, fromIterGo, stepChar, nucChar,
          if_neg hcond] <;>
        simp only [Char.reduceEq, if_true, if_false, ite_true, ite_false, reduceIte] <;>
        exact ih (i + 1) _ _

theorem fromIterGo_fst (l : List Nuc) : ∀ (i e : Nat) (st : BuildSt), e % 4 = i % 4 →
    (fromIterGo l i e st).1 % 4 = (i + l.length) % 4 := by
  induction l with
  | nil =>
    intro i e st h
    simp only [fromIterGo, List.length_nil, Nat.add_zero]
    exact h
  | cons n rest ih =>
    intro i e st h
    by_cases hcond : i ≠ 0 ∧ i % 4 = 0
    · cases n <;>
        simp only [fromIterGo, if_pos hcond] <;>
        rw [ih (i + 1) (0 + 1) _ (by omega)] <;>
        simp only [List.length_cons] <;>
        omega
    · cases n <;>
        simp only [fromIterGo, if_neg hcond] <;>
        rw [ih (i + 1) (e + 1) _ (by omega)] <;>
        simp only [List.length_cons] <;>
        omega

theorem fromIter_eq_fromStr (l : List Nuc) (s : String) (hs : s.data = l.map nucChar) :
    PackedDna.fromStr s = .ok (PackedDna.fromIter l) := by
  have hup : (l.map nucChar).map toAsciiUpper = l.map nucChar := by
    rw [List.map_map]
    exact List.map_congr_left (fun n _ => toAsciiUpper_nucChar n)
  rw [fromStr_eq_match, hs, hup]
  rw [fromIterGo_snd l 0 0 ⟨[], 0, 0, 0, 0, 0⟩]
  have hfst : (fromIterGo l 0 0 ⟨[], 0, 0, 0, 0, 0⟩).1 % 4 = l.length % 4 := by
    have h1 := fromIterGo_fst l 0 0 ⟨[], 0, 0, 0, 0, 0⟩ rfl
    simpa using h1
  simp only [PackedDna.fromIter, Except.ok.injEq, PackedDna.mk.injEq]
  exact ⟨trivial, by rw [List.length_map, hfst], trivial, trivial, trivial, trivial⟩

theorem fromIter_shape (l : List Nuc) :
    PackedDna.fromIter l = ⟨chunksPack (l.map nucCode), l.length % 4,
      (l.map nucCode).count 0, (l.map nucCode).count 1,
      (l.map nucCode).count 2, (l.map nucCode).count 3⟩ := by
  have hmap : ((String.mk (l.map nucChar)).data.map toAsciiUpper).map charCode =
      (l.map nucCode).map some := by
    show ((l.map nucChar).map toAsciiUpper).map charCode = (l.map nucCode).map some
    rw [List.map_map, List.map_map, List.map_map]
    exact List.map_congr_left (fun n _ => by
      show charCode (toAsciiUpper (nucChar n)) = some (nucCode n)
      rw [toAsciiUpper_nucChar, charCode_nucChar])
  have h1 := fromStr_valid (String.mk (l.map nucChar)) (l.map nucCode) hmap
  have h2 := fromIter_eq_fromStr l (String.mk (l.map nucChar)) rfl
  rw [h2] at h1
  have h3 := Except.ok.inj h1
  rw [h3]
  simp [List.length_map]

/-! ## Decoding lemmas for `get` -/

theorem getBody_eq (d : PackedDna) (idx j : Nat) :
    getBody d idx j =
      if j / 4 ≥ d.packed_dna.length ∨
          (j / 4 ≥ d.packed_dna.length - 1 ∧ j % 4 ≥ d.last_nuc_set_count) then
        .error (errMsg idx)
      else
        decodePair
          ((if j / 4 = d.packed_dna.length - 1 ∧ d.last_nuc_set_count ≠ 0 then
              ((binary8 (d.packed_dna.getD (j / 4) 0)).reverse.take
                (d.last_nuc_set_count * 2)).reverse
            else binary8 (d.packed_dna.getD (j / 4) 0)).getD (j % 4 * 2) ' ')
          ((if j / 4 = d.packed_dna.length - 1 ∧ d.last_nuc_set_count ≠ 0 then
              ((binary8 (d.packed_dna.getD (j / 4) 0)).reverse.take
                (d.last_nuc_set_count * 2)).reverse
            else binary8 (d.packed_dna.getD (j / 4) 0)).getD (j % 4 * 2 + 1) ' ') := rfl

theorem getBody_err (d : PackedDna) (idx j : Nat)
    (h : j / 4 ≥ d.packed_dna.length ∨
      (j / 4 ≥ d.packed_dna.length - 1 ∧ j % 4 ≥ d.last_nuc_set_count)) :
    getBody d idx j = .error (errMsg idx) := by
  rw [getBody_eq, if_pos h]

theorem decodePair_bits (u e : Nat) :
    decodePair (bitChar u (2 * e + 1)) (bitChar u (2 * e)) =
      .ok (nucOfCode (u / 4 ^ e % 4)) := by
  have h4e : (4 : Nat) ^ e = 2 ^ (2 * e) := by
    rw [pow_mul]
    norm_num
  have hdiv : u / 2 ^ (2 * e + 1) = u / 2 ^ (2 * e) / 2 := by
    rw [pow_succ, Nat.div_div_eq_div_mul]
  have hb1 : u / 2 ^ (2 * e) / 2 % 2 = 0 ∨ u / 2 ^ (2 * e) / 2 % 2 = 1 := by omega
  have hb2 : u / 2 ^ (2 * e) % 2 = 0 ∨ u / 2 ^ (2 * e) % 2 = 1 := by omega
  have hmod : u / 4 ^ e % 4 = 2 * (u / 2 ^ (2 * e) / 2 % 2) + u / 2 ^ (2 * e) % 2 := by
    rw [h4e]
    omega
  rcases hb1 with hb1 | hb1 <;> rcases hb2 with hb2 | hb2 <;>
    simp [bitChar, decodePair, nucOfCode, hdiv, hb1, hb2, hmod]

theorem decodePair_binary8 (u b : Nat) (hb : b < 4) :
    decodePair ((binary8 u).getD (b * 2) ' ') ((binary8 u).getD (b * 2 + 1) ' ') =
      .ok (nucOfCode (u / 4 ^ (3 - b) % 4)) := by
  have hb4 : b = 0 ∨ b = 1 ∨ b = 2 ∨ b = 3 := by omega
  rcases hb4 with h | h | h | h <;> subst h
  · have e1 : (binary8 u).getD (0 * 2) ' ' = bitChar u (2 * 3 + 1) := rfl
    have e2 : (binary8 u).getD (0 * 2 + 1) ' ' = bitChar u (2 * 3) := rfl
    rw [e1, e2, decodePair_bits]
  · have e1 : (binary8 u).getD (1 * 2) ' ' = bitChar u (2 * 2 + 1) := rfl
    have e2 : (binary8 u).getD (1 * 2 + 1) ' ' = bitChar u (2 * 2) := rfl
    rw [e1, e2, decodePair_bits]
  · have e1 : (binary8 u).getD (2 * 2) ' ' = bitChar u (2 * 1 + 1) := rfl
    have e2 : (binary8 u).getD (2 * 2 + 1) ' ' = bitChar u (2 * 1) := rfl
    rw [e1, e2, decodePair_bits]
  · have e1 : (binary8 u).getD (3 * 2) ' ' = bitChar u (2 * 0 + 1) := rfl
    have e2 : (binary8 u).getD (3 * 2 + 1) ' ' = bitChar u (2 * 0) := rfl
    rw [e1, e2, decodePair_bits]

theorem decodePair_truncated (u t b : Nat) (ht : t = 1 ∨ t = 2 ∨ t = 3) (hb : b < t) :
    decodePair ((((binary8 u).reverse.take (t * 2)).reverse).getD (b * 2) ' ')
      ((((binary8 u).reverse.take (t * 2)).reverse).getD (b * 2 + 1) ' ') =
      .ok (nucOfCode (u / 4 ^ (t - 1 - b) % 4)) := by
  rcases ht with h | h | h <;> subst h
  · have hb0 : b = 0 := by omega
    subst hb0
    have e1 : (((binary8 u).reverse.take (1 * 2)).reverse).getD (0 * 2) ' ' =
      bitChar u (2 * 0 + 1) := rfl
    have e2 : (((binary8 u).reverse.take (1 * 2)).reverse).getD (0 * 2 + 1) ' ' =
      bitChar u (2 * 0) := rfl
    rw [e1, e2, decodePair_bits]
  · have hb01 : b = 0 ∨ b = 1 := by omega
    rcases hb01 with h | h <;> subst h
    · have e1 : (((binary8 u).reverse.take (2 * 2)).reverse).getD (0 * 2) ' ' =
        bitChar u (2 * 1 + 1) := rfl
      have e2 : (((binary8 u).reverse.take (2 * 2)).reverse).getD (0 * 2 + 1) ' ' =
        bitChar u (2 * 1) := rfl
      rw [e1, e2, decodePair_bits]
    · have e1 : (((binary8 u).reverse.take (2 * 2)).reverse).getD (1 * 2) ' ' =
        bitChar u (2 * 0 + 1) := rfl
      have e2 : (((binary8 u).reverse.take (2 * 2)).reverse).getD (1 * 2 + 1) ' ' =
        bitChar u (2 * 0) := rfl
      rw [e1, e2, decodePair_bits]
  · have hb02 : b = 0 ∨ b = 1 ∨ b = 2 := by omega
    rcases hb02 with h | h | h <;> subst h
    · have e1 : (((binary8 u).reverse.take (3 * 2)).reverse).getD (0 * 2) ' ' =
        bitChar u (2 * 2 + 1) := rfl
      have e2 : (((binary8 u).reverse.take (3 * 2)).reverse).getD (0 * 2 + 1) ' ' =
        bitChar u (2 * 2) := rfl
      rw [e1, e2, decodePair_bits]
    · have e1 : (((binary8 u).reverse.take (3 * 2)).reverse).getD (1 * 2) ' ' =
        bitChar u (2 * 1 + 1) := rfl
      have e2 : (((binary8 u).reverse.take (3 * 2)).reverse).getD (1 * 2 + 1) ' ' =
        bitChar u (2 * 1) := rfl
      rw [e1, e2, decodePair_bits]
    · have e1 : (((binary8 u).reverse.take (3 * 2)).reverse).getD (2 * 2) ' ' =
        bitChar u (2 * 0 + 1) := rfl
      have e2 : (((binary8 u).reverse.take (3 * 2)).reverse).getD (2 * 2 + 1) ' ' =
        bitChar u (2 * 0) := rfl
      rw [e1, e2, decodePair_bits]

theorem getBody_decode (d : PackedDna) (idx j : Nat)
    (h1 : j / 4 < d.packed_dna.length)
    (h2 : d.packed_dna.length - 1 ≤ j / 4 → j % 4 < d.last_nuc_set_count) :
    getBody d idx j =
      .ok (nucOfCode (d.packed_dna.getD (j / 4) 0 / 4 ^ fieldExp d j % 4)) := by
  have hg : ¬ (j / 4 ≥ d.packed_dna.length ∨
      (j / 4 ≥ d.packed_dna.length - 1 ∧ j % 4 ≥ d.last_nuc_set_count)) := by
    push_neg
    exact ⟨h1, fun hle => h2 hle⟩
  rw [getBody_eq, if_neg hg]
  by_cases htr : j / 4 = d.packed_dna.length - 1 ∧ d.last_nuc_set_count ≠ 0
  · rw [if_pos htr]
    have hb : j % 4 < d.last_nuc_set_count := h2 (le_of_eq htr.1.symm)
    by_cases ht4 : d.last_nuc_set_count < 4
    · have hfe : fieldExp d j = d.last_nuc_set_count - 1 - j % 4 := by
        unfold fieldExp
        rw [if_pos ⟨htr.1, htr.2, ht4⟩]
      rw [hfe]
      exact decodePair_truncated _ _ _ (by omega) hb
    · have htake : (binary8 (d.packed_dna.getD (j / 4) 0)).reverse.take
          (d.last_nuc_set_count * 2) = (binary8 (d.packed_dna.getD (j / 4) 0)).reverse := by
        apply List.take_of_length_le
        simp [binary8]
        omega
      rw [htake, List.reverse_reverse]
      have hfe : fieldExp d j = 3 - j % 4 := by
        unfold fieldExp
        rw [if_neg (fun hcon => ht4 hcon.2.2)]
      rw [hfe]
      exact decodePair_binary8 _ _ (by omega)
  · rw [if_neg htr]
    have hfe : fieldExp d j = 3 - j % 4 := by
      unfold fieldExp
      rw [if_neg (fun hcon => htr ⟨hcon.1, hcon.2.1⟩)]
    rw [hfe]
    exact decodePair_binary8 _ _ (by omega)

theorem getBody_total (d : PackedDna) (idx j : Nat) :
    (∃ nu, getBody d idx j = .ok nu) ∨ getBody d idx j = .error (errMsg idx) := by
  by_cases hg : j / 4 ≥ d.packed_dna.length ∨
      (j / 4 ≥ d.packed_dna.length - 1 ∧ j % 4 ≥ d.last_nuc_set_count)
  · right
    exact getBody_err d idx j hg
  · left
    push_neg at hg
    exact ⟨_, getBody_decode d idx j hg.1 hg.2⟩

/-! ## Reading fields of the canonical packed form -/

theorem getD_drop {α : Type} (l : List α) : ∀ (m b : Nat) (x : α),
    (l.drop m).getD b x = l.getD (m + b) x := by
  induction l with
  | nil => intro m b x; simp
  | cons a l2 ih =>
    intro m b x
    cases m with
    | zero => simp
    | succ m2 =>
      have h1 : (a :: l2).drop (m2 + 1) = l2.drop m2 := rfl
      have h2 : m2 + 1 + b = (m2 + b) + 1 := by omega
      rw [h1, h2, List.getD_cons_succ, ih m2 b x]

theorem getD_take {α : Type} (l : List α) : ∀ (t b : Nat) (x : α), b < t →
    (l.take t).getD b x = l.getD b x := by
  induction l with
  | nil => intro t b x _; simp
  | cons a l2 ih =>
    intro t b x hb
    cases t with
    | zero => omega
    | succ t2 =>
      cases b with
      | zero => simp
      | succ b2 =>
        have h1 : (a :: l2).take (t2 + 1) = a :: l2.take t2 := rfl
        rw [h1, List.getD_cons_succ, List.getD_cons_succ, ih t2 b2 x (by omega)]

theorem chunksPack_field (ks : List Nat) (hk : ∀ k ∈ ks, k < 4) (i : Nat)
    (hi : i < ks.length) :
    (chunksPack ks).getD (i / 4) 0 /
        4 ^ (min 4 (ks.length - 4 * (i / 4)) - 1 - i % 4) % 4 = ks.getD i 0 := by
  have hne : ks ≠ [] := by
    intro h
    subst h
    simp at hi
  have hq : i / 4 ≤ (ks.length - 1) / 4 := by omega
  rw [chunksPack_getD ks (i / 4) hne hq]
  have hclen : ((ks.drop (4 * (i / 4))).take 4).length =
      min 4 (ks.length - 4 * (i / 4)) := by
    simp [List.length_take, List.length_drop]
  have hkc : ∀ k ∈ (ks.drop (4 * (i / 4))).take 4, k < 4 :=
    fun k hk2 => hk k (List.mem_of_mem_drop (List.mem_of_mem_take hk2))
  have hblt : i % 4 < ((ks.drop (4 * (i / 4))).take 4).length := by
    rw [hclen]
    omega
  have hext := packCodes_extract ((ks.drop (4 * (i / 4))).take 4) (i % 4) hkc hblt
  rw [hclen] at hext
  rw [hext, getD_take _ _ _ _ (by omega), getD_drop]
  congr 1
  omega

theorem getBody_canonical (ks : List Nat) (hk : ∀ k ∈ ks, k < 4)
    (a c g t idx i : Nat) (hi : i < ks.length) (hm : ks.length % 4 ≠ 0) :
    getBody ⟨chunksPack ks, ks.length % 4, a, c, g, t⟩ idx i =
      .ok (nucOfCode (ks.getD i 0)) := by
  have hne : ks ≠ [] := by
    intro h
    subst h
    simp at hi
  have hcl : (chunksPack ks).length = (ks.length + 3) / 4 := by
    rw [chunksPack_length, if_neg (by omega : ¬ ks.length = 0)]
  have h1 : i / 4 < (PackedDna.mk (chunksPack ks) (ks.length % 4) a c g t).packed_dna.length := by
    show i / 4 < (chunksPack ks).length
    rw [hcl]
    omega
  have h2 : (PackedDna.mk (chunksPack ks) (ks.length % 4) a c g t).packed_dna.length - 1 ≤ i / 4 →
      i % 4 < (PackedDna.mk (chunksPack ks) (ks.length % 4) a c g t).last_nuc_set_count := by
    show (chunksPack ks).length - 1 ≤ i / 4 → i % 4 < ks.length % 4
    rw [hcl]
    intro hle
    omega
  rw [getBody_decode _ idx i h1 h2]
  have hfe : fieldExp ⟨chunksPack ks, ks.length % 4, a, c, g, t⟩ i =
      min 4 (ks.length - 4 * (i / 4)) - 1 - i % 4 := by
    unfold fieldExp
    show (if i / 4 = (chunksPack ks).length - 1 ∧ ks.length % 4 ≠ 0 ∧ ks.length % 4 < 4 then
        ks.length % 4 - 1 - i % 4 else 3 - i % 4) = _
    by_cases hlast : i / 4 = (chunksPack ks).length - 1
    · rw [if_pos ⟨hlast, hm, by omega⟩]
      rw [hcl] at hlast
      omega
    · rw [if_neg (fun hcon => hlast hcon.1)]
      rw [hcl] at hlast
      omega
  show Except.ok (nucOfCode ((chunksPack ks).getD (i / 4) 0 /
      4 ^ fieldExp ⟨chunksPack ks, ks.length % 4, a, c, g, t⟩ i % 4)) = _
  rw [hfe, chunksPack_field ks hk i hi]

/-! ## The `usize` subtraction in `get` -/

theorem USIZE_val : USIZE = 18446744073709551616 := by norm_num [USIZE]

theorem get_eq_getBody (d : PackedDna) (idx : Nat) (h1 : 1 ≤ idx) (h2 : idx < USIZE) :
    d.get idx = getBody d idx (idx - 1) := by
  have harg : (idx + (USIZE - 1)) % USIZE = idx - 1 := by
    rw [USIZE_val] at h2 ⊢
    omega
  unfold PackedDna.get
  rw [harg]

theorem getChecked_eq (d : PackedDna) (idx : Nat) (h1 : 1 ≤ idx) :
    d.getChecked idx = some (getBody d idx (idx - 1)) := by
  unfold PackedDna.getChecked
  rw [if_neg (by omega)]

/-! ## Character and counting lemmas -/

theorem char_le_iff (a b : Char) : a ≤ b ↔ a.toNat ≤ b.toNat := by
  rw [Char.le_def, UInt32.le_def]
  rfl

theorem ofNat_toNat (n : Nat) (h : n < 55296) : (Char.ofNat n).toNat = n := by
  unfold Char.ofNat
  rw [dif_pos (Or.inl h : n.isValidChar)]
  unfold Char.ofNatAux
  simp [Char.toNat, UInt32.toNat, BitVec.toNat_ofNatLt]

theorem toAsciiUpper_idem (c : Char) : toAsciiUpper (toAsciiUpper c) = toAsciiUpper c := by
  unfold toAsciiUpper
  by_cases h : 'a' ≤ c ∧ c ≤ 'z'
  · rw [if_pos h]
    have h1 : ('a').toNat ≤ c.toNat := (char_le_iff 'a' c).mp h.1
    have h2 : c.toNat ≤ ('z').toNat := (char_le_iff c 'z').mp h.2
    have h97 : ('a').toNat = 97 := rfl
    have h122 : ('z').toNat = 122 := rfl
    have h3 : (Char.ofNat (c.toNat - 32)).toNat = c.toNat - 32 :=
      ofNat_toNat _ (by omega)
    have hne : ¬ ('a' ≤ Char.ofNat (c.toNat - 32) ∧ Char.ofNat (c.toNat - 32) ≤ 'z') := by
      intro hcon
      have h4 : ('a').toNat ≤ (Char.ofNat (c.toNat - 32)).toNat :=
        (char_le_iff _ _).mp hcon.1
      rw [h3] at h4
      omega
    rw [if_neg hne]
  · rw [if_neg h, if_neg h]

theorem counts_code (cs : List Char) : ∀ ks : List Nat, cs.map charCode = ks.map some →
    ks.count 0 = cs.count 'A' ∧ ks.count 1 = cs.count 'C' ∧
    ks.count 2 = cs.count 'G' ∧ ks.count 3 = cs.count 'T' := by
  induction cs with
  | nil =>
    intro ks hmap
    have hks : ks = [] := by
      have h1 : ks.map some = [] := hmap.symm
      simpa using h1
    subst hks
    simp
  | cons c1 cs1 ih =>
    intro ks hmap
    cases ks with
    | nil => simp at hmap
    | cons k1 ks1 =>
      simp only [List.map_cons, List.cons.injEq] at hmap
      obtain ⟨hc1, hrest⟩ := hmap
      obtain ⟨h0, h1, h2, h3⟩ := ih ks1 hrest
      rcases charCode_cases hc1 with ⟨he, hk⟩ | ⟨he, hk⟩ | ⟨he, hk⟩ | ⟨he, hk⟩ <;>
        subst he <;> subst hk <;>
        simp [List.count_cons, h0, h1, h2, h3]

theorem counts_sum (ks : List Nat) : (∀ k ∈ ks, k < 4) →
    ks.count 0 + ks.count 1 + ks.count 2 + ks.count 3 = ks.length := by
  induction ks with
  | nil => intro _; simp
  | cons k ks1 ih =>
    intro hk
    have hk1 : k < 4 := hk k (by simp)
    have ih2 := ih (fun x hx => hk x (by simp [hx]))
    have h4 : k = 0 ∨ k = 1 ∨ k = 2 ∨ k = 3 := by omega
    rcases h4 with h | h | h | h <;> subst h <;>
      simp [List.count_cons] <;> omega

theorem count_map_upper (s : List Char) (ch : Char) :
    (s.map toAsciiUpper).count ch = s.countP (fun c => toAsciiUpper c == ch) := by
  rw [List.count_eq_countP, List.countP_map]
  rfl

/-! ## Remaining helper lemmas -/

theorem valid_codes (s : List Char) (hv : ∀ c ∈ s, (charCode (toAsciiUpper c)).isSome) :
    (s.map toAsciiUpper).map charCode =
      (s.map (fun c => (charCode (toAsciiUpper c)).getD 0)).map some := by
  rw [List.map_map, List.map_map]
  apply List.map_congr_left
  intro c hc
  have h1 := hv c hc
  cases hcc : charCode (toAsciiUpper c) with
  | none => rw [hcc] at h1; simp at h1
  | some k =>
    show charCode (toAsciiUpper c) = some ((charCode (toAsciiUpper c)).getD 0)
    rw [hcc]
    rfl

theorem getD_map_lt {α β : Type} (f : α → β) (l : List α) : ∀ (i : Nat), i < l.length →
    ∀ (y : β) (x : α), (l.map f).getD i y = f (l.getD i x) := by
  induction l with
  | nil => intro i hi; simp at hi
  | cons a l2 ih =>
    intro i hi y x
    cases i with
    | zero => simp
    | succ i2 =>
      simp only [List.map_cons, List.getD_cons_succ]
      exact ih i2 (by simpa using hi) y x

/-! ## Claim theorems -/

/-- C1 counterexample: the round-trip claim fails on the valid 4-letter string
"ACGT": construction succeeds, but `get 1` already reports out of range
(with `tail_count = 0` the bounds check rejects every field of the last —
here only — storage unit), so the decoded letters cannot reproduce "ACGT". -/
theorem c1_cex : PackedDna.fromStr "ACGT" = .ok ⟨[27], 0, 1, 1, 1, 1⟩ ∧
    (PackedDna.mk [27] 0 1 1 1 1).get 1 = .error (errMsg 1) := by
  constructor
  · decide
  · decide

/-- C1 (amended): for every string over the alphabet (any mix of case) whose
length is NOT a positive multiple of 4, `from_str` succeeds and decoding the
1-based indexes 1..n reproduces the uppercased input letter by letter. -/
theorem c1_round_trip (s : String)
    (hv : ∀ c ∈ s.data, (charCode (toAsciiUpper c)).isSome)
    (hn : s.data.length % 4 ≠ 0 ∨ s.data = [])
    (hb : s.data.length < USIZE) :
    ∃ d, PackedDna.fromStr s = .ok d ∧
      (List.range s.data.length).map (fun i => (d.get (i + 1)).map nucChar) =
        s.data.map (fun c => Except.ok (toAsciiUpper c)) := by
  rcases hn with hn | hn
  · have hmap := valid_codes s.data hv
    have hlen : (s.data.map (fun c => (charCode (toAsciiUpper c)).getD 0)).length =
        s.data.length := by simp
    have hk4 : ∀ k ∈ s.data.map (fun c => (charCode (toAsciiUpper c)).getD 0), k < 4 :=
      codes_lt hmap
    refine ⟨_, fromStr_valid s _ hmap, ?_⟩
    apply List.ext_getElem
    · simp
    intro i h1 h2
    simp only [List.getElem_map, List.getElem_range]
    have hilt : i < s.data.length := by simpa using h1
    have hget : (PackedDna.mk
        (chunksPack (s.data.map (fun c => (charCode (toAsciiUpper c)).getD 0)))
        ((s.data.map (fun c => (charCode (toAsciiUpper c)).getD 0)).length % 4)
        ((s.data.map (fun c => (charCode (toAsciiUpper c)).getD 0)).count 0)
        ((s.data.map (fun c => (charCode (toAsciiUpper c)).getD 0)).count 1)
        ((s.data.map (fun c => (charCode (toAsciiUpper c)).getD 0)).count 2)
        ((s.data.map (fun c => (charCode (toAsciiUpper c)).getD 0)).count 3)).get (i + 1) =
        .ok (nucOfCode ((s.data.map (fun c => (charCode (toAsciiUpper c)).getD 0)).getD i 0)) := by
      rw [get_eq_getBody _ (i + 1) (by omega) (by rw [USIZE_val] at hb ⊢; omega)]
      have hsub : i + 1 - 1 = i := by omega
      rw [hsub]
      exact getBody_canonical _ hk4 _ _ _ _ (i + 1) i (by omega) (by rw [hlen]; exact hn)
    rw [hget]
    have hgd : (s.data.map (fun c => (charCode (toAsciiUpper c)).getD 0)).getD i 0 =
        (charCode (toAsciiUpper (s.data.getD i 'A'))).getD 0 := by
      have := getD_map_lt (fun c => (charCode (toAsciiUpper c)).getD 0) s.data i hilt 0 'A'
      rw [this]
    rw [hgd]
    have hmem : s.data.getD i 'A' ∈ s.data := by
      rw [List.getD_eq_getElem s.data 'A' hilt]
      exact List.getElem_mem hilt
    have hval := hv _ hmem
    cases hcc : charCode (toAsciiUpper (s.data.getD i 'A')) with
    | none => rw [hcc] at hval; simp at hval
    | some k =>
      have hchar := nucChar_nucOfCode hcc
      show Except.map nucChar (Except.ok (nucOfCode ((some k).getD 0))) =
        Except.ok (toAsciiUpper s.data[i])
      simp only [Except.map, Option.getD_some]
      rw [hchar, List.getD_eq_getElem s.data 'A' hilt]
  · refine ⟨⟨chunksPack [], 0, 0, 0, 0, 0⟩, ?_, ?_⟩
    · have hmap : (s.data.map toAsciiUpper).map charCode = ([] : List Nat).map some := by
        rw [hn]
        rfl
      have := fromStr_valid s [] hmap
      simpa using this
    · rw [hn]
      simp

/-- C1 witness: the amended round trip at the concrete input "ACG". -/
theorem c1_witness :
    ((∀ c ∈ ("ACG" : String).data, (charCode (toAsciiUpper c)).isSome) ∧
      (("ACG" : String).data.length % 4 ≠ 0 ∨ ("ACG" : String).data = []) ∧
      ("ACG" : String).data.length < USIZE) ∧
    (∃ d, PackedDna.fromStr "ACG" = .ok d ∧
      (List.range ("ACG" : String).data.length).map
          (fun i => (d.get (i + 1)).map nucChar) =
        ("ACG" : String).data.map (fun c => Except.ok (toAsciiUpper c))) :=
  ⟨⟨by decide, by decide, by decide⟩, c1_round_trip "ACG" (by decide) (by decide) (by decide)⟩

/-- C2 counterexample: for the length-4 string "TTTT" the last (only) unit is
fully occupied (`tail_count = 0`), yet `get` fails for every index 1..4 —
the bounds check has no exception for `tail_count == 0`. -/
theorem c2_cex : PackedDna.fromStr "TTTT" = .ok ⟨[255], 0, 0, 0, 0, 4⟩ ∧
    (PackedDna.mk [255] 0 0 0 0 4).get 1 = .error (errMsg 1) ∧
    (PackedDna.mk [255] 0 0 0 0 4).get 2 = .error (errMsg 2) ∧
    (PackedDna.mk [255] 0 0 0 0 4).get 3 = .error (errMsg 3) ∧
    (PackedDna.mk [255] 0 0 0 0 4).get 4 = .error (errMsg 4) := by
  refine ⟨by decide, by decide, by decide, by decide, by decide⟩

/-- C2 (amended): when `tail_count = 0`, NO field of the last storage unit is
addressable: every index that lands in (or beyond) the last unit fails with
the out-of-range error; in particular a sequence built from a string of
length exactly 4 has `tail_count = 0` and `get i` fails for every i in 1..4. -/
theorem c2_tail_zero :
    (∀ (d : PackedDna) (idx : Nat), d.last_nuc_set_count = 0 →
        d.packed_dna.length ≤ (idx - 1) / 4 + 1 → 1 ≤ idx → idx < USIZE →
        d.get idx = .error (errMsg idx)) ∧
    (∀ (s : String) (d : PackedDna), s.data.length = 4 → PackedDna.fromStr s = .ok d →
        d.last_nuc_set_count = 0 ∧
        ∀ idx, 1 ≤ idx → idx ≤ 4 → d.get idx = .error (errMsg idx)) := by
  have hgen : ∀ (d : PackedDna) (idx : Nat), d.last_nuc_set_count = 0 →
      d.packed_dna.length ≤ (idx - 1) / 4 + 1 → 1 ≤ idx → idx < USIZE →
      d.get idx = .error (errMsg idx) := by
    intro d idx ht hlen h1 h2
    rw [get_eq_getBody d idx h1 h2]
    apply getBody_err
    by_cases hc : d.packed_dna.length ≤ (idx - 1) / 4
    · left
      exact hc
    · right
      exact ⟨by omega, by rw [ht]; exact Nat.zero_le _⟩
  refine ⟨hgen, ?_⟩
  intro s d hlen4 hok
  obtain ⟨ks, hmap, hd, hkl⟩ := fromStr_ok_shape s d hok
  have htail : d.last_nuc_set_count = 0 := by
    rw [hd]
    show ks.length % 4 = 0
    omega
  refine ⟨htail, ?_⟩
  intro idx hi1 hi4
  apply hgen d idx htail ?_ hi1 (by rw [USIZE_val]; omega)
  rw [hd]
  show (chunksPack ks).length ≤ (idx - 1) / 4 + 1
  rw [chunksPack_length, if_neg (by omega : ¬ ks.length = 0)]
  omega

/-- C2 witness: the amended claim at the concrete length-4 input "ACGT". -/
theorem c2_witness :
    (("ACGT" : String).data.length = 4 ∧
      PackedDna.fromStr "ACGT" = .ok ⟨[27], 0, 1, 1, 1, 1⟩) ∧
    ((PackedDna.mk [27] 0 1 1 1 1).last_nuc_set_count = 0 ∧
      ∀ idx, 1 ≤ idx → idx ≤ 4 →
        (PackedDna.mk [27] 0 1 1 1 1).get idx = .error (errMsg idx)) :=
  ⟨⟨by decide, by decide⟩,
    c2_tail_zero.2 "ACGT" ⟨[27], 0, 1, 1, 1, 1⟩ (by decide) (by decide)⟩

/-- C3 counterexample: bit order inside a partially filled last unit.  For
the input "C" the single stored unit has value 1: the code of C sits in the
LEAST significant field, while the most significant 2-bit field of the unit
(the one the claim asserts holds the first-encoded symbol) decodes to A. -/
theorem c3_cex : PackedDna.fromStr "C" = .ok ⟨[1], 1, 0, 1, 0, 0⟩ ∧
    nucOfCode ((1 : Nat) / 4 ^ 3 % 4) = Nuc.A ∧ nucCode Nuc.A ≠ nucCode Nuc.C := by
  refine ⟨by decide, by decide, by decide⟩

/-- C3 (amended): in every FULL storage unit the four 2-bit fields are laid
out most-significant field first (code table A=00, C=01, G=10, T=11); a
partially filled last unit instead holds its `tail_count` codes in the LOW
`2·tail_count` bits (first-encoded code most significant among those).
Uniformly: symbol `i` (0-based) sits at base-4 digit
`min 4 (n - 4*(i/4)) - 1 - i%4` of unit `i/4`.  Holds for both constructors. -/
theorem c3_layout :
    (∀ (s : String) (ks : List Nat),
        (s.data.map toAsciiUpper).map charCode = ks.map some →
        ∀ (d : PackedDna), PackedDna.fromStr s = .ok d →
        ∀ i, i < ks.length →
        d.packed_dna.getD (i / 4) 0 /
            4 ^ (min 4 (ks.length - 4 * (i / 4)) - 1 - i % 4) % 4 = ks.getD i 0) ∧
    (∀ (l : List Nuc) (i : Nat), i < l.length →
        (PackedDna.fromIter l).packed_dna.getD (i / 4) 0 /
            4 ^ (min 4 (l.length - 4 * (i / 4)) - 1 - i % 4) % 4 =
          nucCode (l.getD i Nuc.A)) := by
  constructor
  · intro s ks hmap d hok i hi
    have hv := fromStr_valid s ks hmap
    rw [hok] at hv
    have hd := Except.ok.inj hv
    rw [hd]
    show (chunksPack ks).getD (i / 4) 0 / _ % 4 = _
    exact chunksPack_field ks (codes_lt hmap) i hi
  · intro l i hi
    rw [fromIter_shape]
    show (chunksPack (l.map nucCode)).getD (i / 4) 0 / _ % 4 = _
    have hmlen : (l.map nucCode).length = l.length := by simp
    have hk4 : ∀ k ∈ l.map nucCode, k < 4 := by
      intro k hk
      obtain ⟨n, _, hn⟩ := List.mem_map.mp hk
      subst hn
      cases n <;> decide
    have hfield := chunksPack_field (l.map nucCode) hk4 i (by rw [hmlen]; exact hi)
    rw [hmlen] at hfield
    rw [hfield]
    exact getD_map_lt nucCode l i hi 0 Nuc.A

/-- C3 witness: the amended layout at the concrete inputs "AC" (text path)
and [C] (stream path). -/
theorem c3_witness :
    ((("AC" : String).data.map toAsciiUpper).map charCode = [0, 1].map some ∧
      PackedDna.fromStr "AC" = .ok ⟨[1], 2, 1, 1, 0, 0⟩ ∧ (0 : Nat) < [0, 1].length ∧
      (PackedDna.mk [1] 2 1 1 0 0).packed_dna.getD 0 0 /
          4 ^ (min 4 ([0, 1].length - 4 * (0 / 4)) - 1 - 0 % 4) % 4 = [0, 1].getD 0 0) ∧
    ((0 : Nat) < [Nuc.C].length ∧
      (PackedDna.fromIter [Nuc.C]).packed_dna.getD (0 / 4) 0 /
          4 ^ (min 4 ([Nuc.C].length - 4 * (0 / 4)) - 1 - 0 % 4) % 4 =
        nucCode ([Nuc.C].getD 0 Nuc.A)) :=
  ⟨⟨by decide, by decide, by decide,
      c3_layout.1 "AC" [0, 1] (by decide) ⟨[1], 2, 1, 1, 0, 0⟩ (by decide) 0 (by decide)⟩,
    ⟨by decide, c3_layout.2 [Nuc.C] 0 (by decide)⟩⟩

/-- C4 counterexample: the parse error carries the WHOLE uppercased input,
not just the prefix up to the offending character: `from_str "AXC"` fails
with payload "AXC", not "AX". -/
theorem c4_cex : PackedDna.fromStr "AXC" = .error "AXC" ∧ ("AXC" : String) ≠ "AX" := by
  refine ⟨by decide, by decide⟩

/-- C4 (amended): for every input containing a character outside {A,C,G,T}
(case-insensitive), `from_str` fails — at the first such character — with a
parse error carrying the ENTIRE uppercased input, and no `PackedDna` is
returned (the error constructor carries only the string). -/
theorem c4_error_payload (s : String)
    (hbad : ∃ c ∈ s.data, charCode (toAsciiUpper c) = none) :
    PackedDna.fromStr s = .error (String.mk (s.data.map toAsciiUpper)) := by
  apply fromStr_of_bad
  obtain ⟨c, hc, hcc⟩ := hbad
  exact ⟨toAsciiUpper c, List.mem_map_of_mem _ hc, hcc⟩

/-- C4 witness: the amended claim at the concrete input "aXgT". -/
theorem c4_witness :
    (∃ c ∈ ("aXgT" : String).data, charCode (toAsciiUpper c) = none) ∧
    PackedDna.fromStr "aXgT" = .error (String.mk (("aXgT" : String).data.map toAsciiUpper)) :=
  ⟨by decide, c4_error_payload "aXgT" (by decide)⟩

/-- C5 counterexample: `get 0` is NOT a returned error value under Rust's
checked (debug-profile) arithmetic: `idx - 1` underflows a `usize` and the
program aborts, modelled by `getChecked` returning `none`. -/
theorem c5_cex : (PackedDna.fromIter [Nuc.A]).getChecked 0 = none := by decide

/-- C5 (amended): for every `PackedDna` and every index `idx ≥ 1` (within
`usize` range), `get` returns an explicit `Result` — either `Ok` of a
nucleotide or the descriptive out-of-range error — and the checked
(debug-profile) semantics agrees with it, i.e. there is no abort; the
`idx = 0` case aborts in a checked build (and reports out-of-range under
release wrapping semantics).  Parsing is total by construction. -/
theorem c5_no_panic (d : PackedDna) (idx : Nat) (h1 : 1 ≤ idx) (h2 : idx < USIZE) :
    d.getChecked idx = some (d.get idx) ∧
    ((∃ nu, d.get idx = .ok nu) ∨ d.get idx = .error (errMsg idx)) := by
  rw [get_eq_getBody d idx h1 h2, getChecked_eq d idx h1]
  exact ⟨rfl, getBody_total d idx (idx - 1)⟩

/-- C5 witness: the amended claim at the concrete sequence built from [A]
and the indexes 1 (in range) and 9 (out of range). -/
theorem c5_witness :
    ((1 ≤ 1 ∧ 1 < USIZE) ∧
      ((PackedDna.fromIter [Nuc.A]).getChecked 1 = some ((PackedDna.fromIter [Nuc.A]).get 1) ∧
        ((∃ nu, (PackedDna.fromIter [Nuc.A]).get 1 = .ok nu) ∨
          (PackedDna.fromIter [Nuc.A]).get 1 = .error (errMsg 1)))) ∧
    ((1 ≤ 9 ∧ 9 < USIZE) ∧
      ((PackedDna.fromIter [Nuc.A]).getChecked 9 = some ((PackedDna.fromIter [Nuc.A]).get 9) ∧
        ((∃ nu, (PackedDna.fromIter [Nuc.A]).get 9 = .ok nu) ∨
          (PackedDna.fromIter [Nuc.A]).get 9 = .error (errMsg 9)))) :=
  ⟨⟨⟨by decide, by decide⟩, c5_no_panic (PackedDna.fromIter [Nuc.A]) 1 (by decide) (by decide)⟩,
    ⟨⟨by decide, by decide⟩, c5_no_panic (PackedDna.fromIter [Nuc.A]) 9 (by decide) (by decide)⟩⟩

/-- C6: building from a `Nuc` stream never fails (it is a total function)
and produces exactly the same `PackedDna` — storage bytes, `tail_count`
(equal to the number of consumed symbols mod 4) and all four counts — as
parsing the corresponding text; in particular the stream
[A,C,G,T,A,C,G,T,T,T,T] matches the parsed text "ACGTACGTTTT". -/
theorem c6_iter_matches_text :
    (∀ (l : List Nuc) (s : String), s.data = l.map nucChar →
        PackedDna.fromStr s = .ok (PackedDna.fromIter l) ∧
        (PackedDna.fromIter l).last_nuc_set_count = l.length % 4) ∧
    PackedDna.fromStr "ACGTACGTTTT" = .ok (PackedDna.fromIter
      [Nuc.A, Nuc.C, Nuc.G, Nuc.T, Nuc.A, Nuc.C, Nuc.G, Nuc.T, Nuc.T, Nuc.T, Nuc.T]) := by
  constructor
  · intro l s hs
    refine ⟨fromIter_eq_fromStr l s hs, ?_⟩
    rw [fromIter_shape]
  · decide

/-- C6 witness: the stream/text agreement at the concrete stream [A]. -/
theorem c6_witness :
    (("A" : String).data = [Nuc.A].map nucChar) ∧
    (PackedDna.fromStr "A" = .ok (PackedDna.fromIter [Nuc.A]) ∧
      (PackedDna.fromIter [Nuc.A]).last_nuc_set_count = [Nuc.A].length % 4) :=
  ⟨by decide, c6_iter_matches_text.1 [Nuc.A] "A" (by decide)⟩

/-- C7: for every successfully parsed input, `get_counts` returns exactly
four (letter, count) pairs in the fixed order A, C, G, T, each count being
the number of case-insensitive occurrences of that letter in the input, and
the four counts sum to the input length. -/
theorem c7_counts (s : String) (d : PackedDna) (hok : PackedDna.fromStr s = .ok d) :
    d.get_counts = [('A', s.data.countP (fun c => toAsciiUpper c == 'A')),
      ('C', s.data.countP (fun c => toAsciiUpper c == 'C')),
      ('G', s.data.countP (fun c => toAsciiUpper c == 'G')),
      ('T', s.data.countP (fun c => toAsciiUpper c == 'T'))] ∧
    s.data.countP (fun c => toAsciiUpper c == 'A') +
      s.data.countP (fun c => toAsciiUpper c == 'C') +
      s.data.countP (fun c => toAsciiUpper c == 'G') +
      s.data.countP (fun c => toAsciiUpper c == 'T') = s.data.length := by
  obtain ⟨ks, hmap, hd, hkl⟩ := fromStr_ok_shape s d hok
  obtain ⟨h0, h1, h2, h3⟩ := counts_code _ ks hmap
  have hk4 := codes_lt hmap
  have hsum := counts_sum ks hk4
  have hA := count_map_upper s.data 'A'
  have hC := count_map_upper s.data 'C'
  have hG := count_map_upper s.data 'G'
  have hT := count_map_upper s.data 'T'
  constructor
  · rw [hd]
    show [('A', ks.count 0), ('C', ks.count 1), ('G', ks.count 2), ('T', ks.count 3)] = _
    rw [h0, h1, h2, h3, hA, hC, hG, hT]
  · rw [← hA, ← hC, ← hG, ← hT, ← h0, ← h1, ← h2, ← h3, hsum, hkl]

/-- C7 witness: the counts at the concrete input "ACGTTGCACT"
(2 A, 3 C, 2 G, 3 T; sum 10). -/
theorem c7_witness :
    (PackedDna.fromStr "ACGTTGCACT" = .ok ⟨[27, 228, 7], 2, 2, 3, 2, 3⟩) ∧
    ((PackedDna.mk [27, 228, 7] 2 2 3 2 3).get_counts =
        [('A', ("ACGTTGCACT" : String).data.countP (fun c => toAsciiUpper c == 'A')),
         ('C', ("ACGTTGCACT" : String).data.countP (fun c => toAsciiUpper c == 'C')),
         ('G', ("ACGTTGCACT" : String).data.countP (fun c => toAsciiUpper c == 'G')),
         ('T', ("ACGTTGCACT" : String).data.countP (fun c => toAsciiUpper c == 'T'))] ∧
      ("ACGTTGCACT" : String).data.countP (fun c => toAsciiUpper c == 'A') +
        ("ACGTTGCACT" : String).data.countP (fun c => toAsciiUpper c == 'C') +
        ("ACGTTGCACT" : String).data.countP (fun c => toAsciiUpper c == 'G') +
        ("ACGTTGCACT" : String).data.countP (fun c => toAsciiUpper c == 'T') =
        ("ACGTTGCACT" : String).data.length) :=
  ⟨by decide, c7_counts "ACGTTGCACT" ⟨[27, 228, 7], 2, 2, 3, 2, 3⟩ (by decide)⟩

/-- C8: constructing from the empty string or the empty stream yields exactly
one (entirely unwritten) storage unit `[0]` with `tail_count = 0`, and `get`
on that empty sequence reports out of range for every index. -/
theorem c8_empty :
    PackedDna.fromStr "" = .ok ⟨[0], 0, 0, 0, 0, 0⟩ ∧
    PackedDna.fromIter [] = ⟨[0], 0, 0, 0, 0, 0⟩ ∧
    ∀ idx : Nat, (PackedDna.mk [0] 0 0 0 0 0).get idx = .error (errMsg idx) := by
  refine ⟨by decide, by decide, ?_⟩
  intro idx
  unfold PackedDna.get
  apply getBody_err
  right
  constructor <;> simp

/-- C9: parsing is case-insensitive: for every string, parsing its uppercased
form yields exactly the same result (same storage, same `tail_count`, same
counts — indeed the same `PackedDna` or the same error); in particular
`from_str "acgt"` and `from_str "ACGT"` agree. -/
theorem c9_case_insensitive :
    (∀ s : String, PackedDna.fromStr (String.mk (s.data.map toAsciiUpper)) =
        PackedDna.fromStr s) ∧
    PackedDna.fromStr "acgt" = PackedDna.fromStr "ACGT" := by
  constructor
  · intro s
    rw [fromStr_eq_match, fromStr_eq_match]
    have hdata : (String.mk (s.data.map toAsciiUpper)).data = s.data.map toAsciiUpper := rfl
    rw [hdata]
    have hidem : (s.data.map toAsciiUpper).map toAsciiUpper = s.data.map toAsciiUpper := by
      rw [List.map_map]
      exact List.map_congr_left (fun c _ => toAsciiUpper_idem c)
    rw [hidem]
  · decide

/-- C10: on every successful construction from n symbols, the storage vector
has length ceil(n/4) for n ≥ 1 and length 1 for n = 0 (never empty), and
`last_nuc_set_count` equals n mod 4 — for both constructors. -/
theorem c10_storage_shape :
    (∀ (s : String) (d : PackedDna), PackedDna.fromStr s = .ok d →
        d.packed_dna.length = (if s.data.length = 0 then 1 else (s.data.length + 3) / 4) ∧
        d.last_nuc_set_count = s.data.length % 4) ∧
    (∀ l : List Nuc,
        (PackedDna.fromIter l).packed_dna.length =
          (if l.length = 0 then 1 else (l.length + 3) / 4) ∧
        (PackedDna.fromIter l).last_nuc_set_count = l.length % 4) := by
  constructor
  · intro s d hok
    obtain ⟨ks, hmap, hd, hkl⟩ := fromStr_ok_shape s d hok
    rw [hd]
    constructor
    · show (chunksPack ks).length = _
      rw [chunksPack_length, hkl]
    · show ks.length % 4 = _
      rw [hkl]
  · intro l
    rw [fromIter_shape]
    constructor
    · show (chunksPack (l.map nucCode)).length = _
      rw [chunksPack_length]
      simp
    · rfl

/-- C10 witness: the storage shape at the concrete input "ACGTT"
(5 symbols: 2 units, tail 1). -/
theorem c10_witness :
    (PackedDna.fromStr "ACGTT" = .ok ⟨[27, 3], 1, 1, 1, 1, 2⟩) ∧
    ((PackedDna.mk [27, 3] 1 1 1 1 2).packed_dna.length =
        (if ("ACGTT" : String).data.length = 0 then 1
          else (("ACGTT" : String).data.length + 3) / 4) ∧
      (PackedDna.mk [27, 3] 1 1 1 1 2).last_nuc_set_count =
        ("ACGTT" : String).data.length % 4) :=
  ⟨by decide, c10_storage_shape.1 "ACGTT" ⟨[27, 3], 1, 1, 1, 1, 2⟩ (by decide)⟩
